import Mathlib

/-!
Verification of `src/assets/generate_icon.py` (FeedbackFlow icon generator).

The script has three parts:
* `create_png(width, height, pixels)` — a minimal PNG encoder,
* `draw_icon(size)` — a procedural rasterizer for the icon,
* `main()` — a driver looping over a fixed filename/size table.

This file gives a shallow embedding of those functions and proves the
behavioural claims about them.  Python byte strings are modelled as
`List ℕ` (each element a byte value), pixel buffers as `List ℕ`
(Python ints produced by `int(...)`, all provably in `[0, 255]`).
Floating-point arithmetic in the source is modelled by its exact
value: comparisons of Euclidean distances are expressed by comparing
squares (both sides are nonnegative), and the single place where a
floating-point value is truncated to an integer (`int(255 * (edge_dist
/ 1.5))` and the gradient channels) is expressed with exact integer
square roots, respectively rational floors.

`zlib.compress` is an external library primitive; the encoder is
parametrised by it, and the round-trip claim assumes the documented
inverse property of `zlib.decompress`.  `zlib.crc32` is modelled
concretely by the documented CRC-32 algorithm (polynomial 0xEDB88320).
-/

namespace IconGen

/-! ## Byte-level primitives (`struct.pack`, `zlib.crc32`) -/

/-- `struct.pack('>I', n)`: 4-byte big-endian encoding of `n`.
For `n < 2^32` this is the exact byte string; Python raises for larger
values, so theorems about it carry a `n < 2^32` hypothesis. -/
def be32 (n : ℕ) : List ℕ :=
  [n / 2 ^ 24 % 256, n / 2 ^ 16 % 256, n / 2 ^ 8 % 256, n % 256]

/-- Big-endian interpretation of a byte list (a standard decoder's view
of a 4-byte field). -/
def fromBE (l : List ℕ) : ℕ :=
  l.foldl (fun acc b => acc * 256 + b) 0

/-- One bit step of CRC-32: shift right, conditionally XOR the
reversed polynomial 0xEDB88320. -/
def crcBit (c : ℕ) : ℕ :=
  if c % 2 = 1 then 0xEDB88320 ^^^ (c / 2) else c / 2

/-- Fold one byte into a CRC-32 accumulator (8 bit steps). -/
def crcByte (c b : ℕ) : ℕ :=
  crcBit^[8] (c ^^^ b)

/-- `zlib.crc32(data)`: CRC-32 with initial and final complement. -/
def crc32 (l : List ℕ) : ℕ :=
  (l.foldl crcByte 0xFFFFFFFF) ^^^ 0xFFFFFFFF

/-! ## The encoder: `create_png` -/

/-- `make_chunk(chunk_type, data)` from the source:
length (4-byte BE), then `chunk_type + data`, then
`struct.pack('>I', zlib.crc32(chunk) & 0xFFFFFFFF)`. -/
def make_chunk (chunkType data : List ℕ) : List ℕ :=
  be32 data.length ++ (chunkType ++ data) ++
    be32 (crc32 (chunkType ++ data) &&& 0xFFFFFFFF)

/-- The 8-byte PNG signature `b'\x89PNG\r\n\x1a\n'`. -/
def pngSig : List ℕ := [0x89, 0x50, 0x4E, 0x47, 0x0D, 0x0A, 0x1A, 0x0A]

/-- The IHDR tag `b'IHDR'`. -/
def ihdrTag : List ℕ := [0x49, 0x48, 0x44, 0x52]

/-- The IDAT tag `b'IDAT'`. -/
def idatTag : List ℕ := [0x49, 0x44, 0x41, 0x54]

/-- The IEND tag `b'IEND'`. -/
def iendTag : List ℕ := [0x49, 0x45, 0x4E, 0x44]

/-- `struct.pack('>IIBBBBB', width, height, 8, 6, 0, 0, 0)`:
the IHDR payload. -/
def ihdrData (width height : ℕ) : List ℕ :=
  be32 width ++ be32 height ++ [8, 6, 0, 0, 0]

/-- Python slice `pixels[i:i+n]` for nonnegative `i`, `n`:
drops `i`, takes at most `n` (silently truncating at the end). -/
def pySlice (l : List ℕ) (i n : ℕ) : List ℕ :=
  (l.drop i).take n

/-- The raw scanline stream built by `create_png`: for each row a
filter byte `0`, then for each pixel the slice `pixels[idx:idx+4]`
with `idx = (y*width + x)*4`. -/
def rawData (width height : ℕ) (pixels : List ℕ) : List ℕ :=
  (List.range height).flatMap fun y =>
    0 :: ((List.range width).flatMap fun x => pySlice pixels ((y * width + x) * 4) 4)

/-- `create_png(width, height, pixels)`, parametrised by the external
compressor `zlib.compress(·, 9)`. -/
def create_png (compress : List ℕ → List ℕ) (width height : ℕ) (pixels : List ℕ) : List ℕ :=
  pngSig ++ make_chunk ihdrTag (ihdrData width height) ++
    make_chunk idatTag (compress (rawData width height pixels)) ++
    make_chunk iendTag []

/-! ## A standard decoder's view of the output -/

/-- Parse a stream of PNG chunks: read a 4-byte BE length, the 4-byte
tag, the payload and the 4-byte CRC field, check that the CRC field
equals the CRC-32 recomputed over tag ++ payload, and continue.
`fuel` bounds the number of chunks read. -/
def parseChunks : ℕ → List ℕ → Option (List (List ℕ × List ℕ))
  | 0, l => if l = [] then some [] else none
  | fuel + 1, l =>
      if l = [] then some []
      else
        let n := fromBE (l.take 4)
        let tag := (l.drop 4).take 4
        let payload := (l.drop 8).take n
        let crcField := (l.drop (8 + n)).take 4
        if 12 + n ≤ l.length ∧ crcField = be32 (crc32 (tag ++ payload) &&& 0xFFFFFFFF) then
          (parseChunks fuel (l.drop (12 + n))).map fun cs => (tag, payload) :: cs
        else none

/-- Strip the per-row filter bytes from a decompressed scanline
stream: for each row skip the filter byte and keep the `4*width`
pixel bytes. -/
def unfilter (width height : ℕ) (raw : List ℕ) : List ℕ :=
  (List.range height).flatMap fun y =>
    ((raw.drop (y * (1 + 4 * width))).drop 1).take (4 * width)

/-- A standard PNG decoder restricted to the stream shape `create_png`
emits: check the signature, parse the chunk stream (verifying each
CRC), read width and height from the first (IHDR) chunk, concatenate
the payloads of the IDAT chunks, decompress, and strip the row filter
bytes. -/
def decodePNG (decompress : List ℕ → List ℕ) (png : List ℕ) : Option (ℕ × ℕ × List ℕ) :=
  if png.take 8 = pngSig then
    (parseChunks png.length (png.drop 8)).bind fun chunks =>
      match chunks with
      | [] => none
      | (t, ih) :: rest =>
        if t = ihdrTag ∧ ih.length = 13 then
          let w := fromBE (ih.take 4)
          let h := fromBE ((ih.drop 4).take 4)
          let dat := (rest.filter fun c => c.1 == idatTag).flatMap fun c => c.2
          some (w, h, unfilter w h (decompress dat))
        else none
  else none

/-! ## The rasterizer: `draw_icon`

Pixel `(x, y)` of an image of size `s` has displacement
`dx = x - s/2`, `dy = y - s/2` from the centre.  To stay in exact
arithmetic we work with the doubled displacements `u = 2*x - s`,
`v = 2*y - s` (integers), so `dx = u/2`, `dy = v/2` and
`dist² = (u² + v²)/4`.  The disk radius is `0.45*s = 9*s/20`. -/

/-- `dist <= radius` of the source, i.e.
`sqrt((u²+v²)/4) ≤ 9*s/20`.  Squaring (both sides nonnegative) and
clearing denominators gives `100*(u²+v²) ≤ 81*s²`. -/
def inDisk (s : ℕ) (u v : ℤ) : Bool :=
  decide (100 * (u ^ 2 + v ^ 2) ≤ 81 * (s : ℤ) ^ 2)

/-- `edge_dist < 1.5` of the source, i.e.
`9*s/20 - sqrt(u²+v²)/2 < 3/2`.  Equivalently `10*sqrt(u²+v²) > 9*s - 30`,
i.e. `9*s - 30 < 0` or `(9*s - 30)² < 100*(u²+v²)`. -/
def inBand (s : ℕ) (u v : ℤ) : Bool :=
  decide (9 * (s : ℤ) - 30 < 0 ∨ (9 * (s : ℤ) - 30) ^ 2 < 100 * (u ^ 2 + v ^ 2))

/-- Least `k` with `k² ≥ n` (the ceiling of `√n`). -/
def sqrtCeil (n : ℕ) : ℕ :=
  if Nat.sqrt n * Nat.sqrt n = n then Nat.sqrt n else Nat.sqrt n + 1

/-- The alpha channel computed at lines 68–73 of the source:
`a = 255`, lowered to `int(255 * (edge_dist / 1.5))` when
`edge_dist < 1.5`.  Inside the disk `edge_dist ≥ 0`, so `int` is the
floor, and `255 * edge_dist / 1.5 = 170 * (9*s/20 - sqrt(u²+v²)/2)
= (153*s - sqrt(28900*(u²+v²)))/2`; its floor is computed exactly with
the integer `sqrtCeil` (for an integer `A` and real `r ≥ 0`,
`⌊(A - r)/2⌋ = (A - ⌈r⌉) / 2` in integer division, and inside the
disk `A = 153*s ≥ ⌈r⌉`, so natural subtraction is exact). -/
def alphaAt (s : ℕ) (u v : ℤ) : ℕ :=
  if inBand s u v then
    (153 * s - sqrtCeil (28900 * (u ^ 2 + v ^ 2)).toNat) / 2
  else 255

/-- The clamped gradient parameter `t = max(0, min(1, (dx+dy)/(2*radius) + 0.5))`;
with doubled displacements `(dx+dy)/(2*radius) = ((u+v)/2)/(9*s/10) = 5*(u+v)/(9*s)`. -/
def tClamp (s : ℕ) (u v : ℤ) : ℚ :=
  max 0 (min 1 (5 * ((u : ℚ) + (v : ℚ)) / (9 * (s : ℚ)) + 1 / 2))

/-- The microphone-glyph test of the source, as a function of the
shape-space coordinates `nx = dx/radius`, `ny = dy/radius`.  Each
`sqrt(a) ≤ r` comparison of the source is expressed as `a ≤ r²`, and
`abs(arc_dist - 0.38) ≤ 0.055` as `0.325² ≤ arc_dist² ≤ 0.435²`
(square-root comparisons with nonnegative bounds). -/
def micTest (nx ny : ℚ) : Bool :=
  -- Microphone body (capsule): mic_width = 0.22, mic_top = -0.55,
  -- mic_bottom = 0.0, mic_corner_r = mic_width.
  let capsule :=
    if |nx| ≤ 22 / 100 then
      if -55 / 100 + 22 / 100 ≤ ny ∧ ny ≤ 0 - 22 / 100 then true
      else if ny < -55 / 100 + 22 / 100 then
        -- top rounded cap: sqrt(nx² + (ny - (mic_top + r))²) ≤ r
        decide (nx * nx + (ny - (-55 / 100 + 22 / 100)) ^ 2 ≤ (22 / 100) ^ 2)
      else if ny > 0 - 22 / 100 then
        -- bottom rounded cap: sqrt(nx² + (ny - (mic_bottom - r))²) ≤ r
        decide (nx * nx + (ny - (0 - 22 / 100)) ^ 2 ≤ (22 / 100) ^ 2)
      else false
    else false
  -- Arc: arc_radius = 0.38, arc_thickness = 0.055, for -0.1 ≤ ny ≤ 0.25;
  -- |sqrt(q) - 0.38| ≤ 0.055 ↔ 0.325² ≤ q ≤ 0.435², with q = nx² + (ny+0.1)².
  let arc :=
    if -1 / 10 ≤ ny ∧ ny ≤ 25 / 100 then
      decide ((325 / 1000 : ℚ) ^ 2 ≤ nx * nx + (ny - (-1 / 10)) ^ 2 ∧
        nx * nx + (ny - (-1 / 10)) ^ 2 ≤ (435 / 1000) ^ 2 ∧ ny ≥ -1 / 10)
    else false
  -- Stand: |nx| ≤ 0.04 and 0.15 ≤ ny ≤ 0.45.
  let stand := decide (|nx| ≤ 4 / 100 ∧ 15 / 100 ≤ ny ∧ ny ≤ 45 / 100)
  -- Base: |nx| ≤ 0.2 and |ny - 0.45| ≤ 0.04.
  let base := decide (|nx| ≤ 2 / 10 ∧ |ny - 45 / 100| ≤ 4 / 100)
  capsule || arc || stand || base

/-- `is_mic` at doubled displacements: `nx = dx/radius = 10*u/(9*s)`,
`ny = 10*v/(9*s)`. -/
def isMic (s : ℕ) (u v : ℤ) : Bool :=
  micTest (10 * (u : ℚ) / (9 * (s : ℚ))) (10 * (v : ℚ) / (9 * (s : ℚ)))

/-- The four channel values `[r, g, b, a]` the source writes for pixel
`(x, y)`: transparent black outside the disk; otherwise the gradient
colours `int(40 + t*20)`, `int(120 + t*30)`, `int(220 - t*40)` with
the anti-aliased alpha, the colour channels overridden to white when
the pixel is part of the microphone glyph. -/
def pixelAt (s x y : ℕ) : List ℕ :=
  let u : ℤ := 2 * (x : ℤ) - s
  let v : ℤ := 2 * (y : ℤ) - s
  if inDisk s u v then
    let t := tClamp s u v
    let r := (⌊(40 : ℚ) + t * 20⌋).toNat
    let g := (⌊(120 : ℚ) + t * 30⌋).toNat
    let b := (⌊(220 : ℚ) - t * 40⌋).toNat
    let a := alphaAt s u v
    if isMic s u v then [255, 255, 255, a] else [r, g, b, a]
  else [0, 0, 0, 0]

/-- `draw_icon(size)`: the flat RGBA buffer, row-major with `y` outer
and `x` inner, pixel `(x, y)` at flat index `(y*size + x)*4`. -/
def draw_icon (size : ℕ) : List ℕ :=
  (List.range size).flatMap fun y =>
    (List.range size).flatMap fun x => pixelAt size x y

/-- Channel `c` of pixel `(x, y)` in the buffer returned by
`draw_icon s` (0 when the index is out of range). -/
def channel (s x y c : ℕ) : ℕ :=
  (draw_icon s).getD ((y * s + x) * 4 + c) 0

/-- The glyph-foreground mask: pixel `(x, y)` is inside the disk and
passes the microphone test (the pixels whose colour the source
overrides to white). -/
def glyphMask (s x y : ℕ) : Bool :=
  inDisk s (2 * (x : ℤ) - s) (2 * (y : ℤ) - s) &&
    isMic s (2 * (x : ℤ) - s) (2 * (y : ℤ) - s)

/-- `edge_dist < 1/170` px: inside this sliver of the anti-aliasing
band the computed alpha `int(255 * (edge_dist / 1.5)) = ⌊170 * edge_dist⌋`
truncates to 0.  `170 * edge_dist < 1` unfolds to
`153*s/2 - sqrt(28900*(u²+v²))/2 < 1`, i.e. `(153*s - 2)² < 28900*(u²+v²)`. -/
def nearEdge (s : ℕ) (u v : ℤ) : Bool :=
  decide ((153 * (s : ℤ) - 2) ^ 2 < 28900 * (u ^ 2 + v ^ 2))

/-! ## The driver: `main` -/

/-- The fixed filename → size table of `main`, in insertion order
(Python dicts iterate in insertion order). -/
def sizesTable : List (String × ℕ) :=
  [("icon_16x16.png", 16),
   ("icon_16x16@2x.png", 32),
   ("icon_32x32.png", 32),
   ("icon_32x32@2x.png", 64),
   ("icon_128x128.png", 128),
   ("icon_128x128@2x.png", 256),
   ("icon_256x256.png", 256),
   ("icon_256x256@2x.png", 512),
   ("icon_512x512.png", 512),
   ("icon_512x512@2x.png", 1024)]

/-- One iteration of the driver loop.  The state is the render cache
`rendered` (an association list keyed by size), the number of
`draw_icon` invocations so far, and the list of files written so far
(filename paired with the bytes written). -/
def mainStep (compress : List ℕ → List ℕ)
    (st : List (ℕ × List ℕ) × ℕ × List (String × List ℕ)) (e : String × ℕ) :
    List (ℕ × List ℕ) × ℕ × List (String × List ℕ) :=
  let cache := if (st.1.lookup e.2).isSome then st.1 else st.1 ++ [(e.2, draw_icon e.2)]
  let count := if (st.1.lookup e.2).isSome then st.2.1 else st.2.1 + 1
  let pixels := (cache.lookup e.2).getD []
  (cache, count, st.2.2 ++ [(e.1, create_png compress e.2 e.2 pixels)])

/-- The observable behaviour of `main()`: the number of `draw_icon`
invocations, and the `(filename, bytes)` pairs written to the output
directory, in order.  Parametrised by the external compressor. -/
def mainRun (compress : List ℕ → List ℕ) : ℕ × List (String × List ℕ) :=
  (sizesTable.foldl (mainStep compress) ([], 0, [])).2

/-! ## List helpers: slicing a `flatMap` over `List.range` -/

/-- Peel the first block off a `flatMap` over `List.range (n+1)`. -/
theorem flatMap_range_succ_left {α : Type} (f : ℕ → List α) (n : ℕ) :
    (List.range (n + 1)).flatMap f = f 0 ++ (List.range n).flatMap fun k => f (k + 1) := by
  rw [List.range_succ_eq_map, List.flatMap_cons, List.flatMap_map]

/-- Length of a `flatMap` over `List.range` of constant-length blocks. -/
theorem length_flatMap_range {α : Type} (c : ℕ) :
    ∀ (n : ℕ) (f : ℕ → List α), (∀ k, k < n → (f k).length = c) →
      ((List.range n).flatMap f).length = n * c := by
  intro n
  induction n with
  | zero => intro f _; simp
  | succ m ih =>
    intro f hf
    rw [flatMap_range_succ_left, List.length_append, hf 0 (Nat.succ_pos m),
      ih (fun k => f (k + 1)) (fun k hk => hf (k + 1) (by omega))]
    ring

/-- Dropping `k` whole blocks from a `flatMap` over `List.range` of
constant-length blocks leaves the `flatMap` of the remaining blocks. -/
theorem drop_flatMap_range {α : Type} (c : ℕ) :
    ∀ (k n : ℕ) (f : ℕ → List α), (∀ j, j < n → (f j).length = c) → k ≤ n →
      ((List.range n).flatMap f).drop (k * c) =
        (List.range (n - k)).flatMap fun j => f (k + j) := by
  intro k
  induction k with
  | zero => intro n f _ _; simp
  | succ m ih =>
    intro n f hf hk
    obtain ⟨p, rfl⟩ : ∃ p, n = p + 1 := ⟨n - 1, by omega⟩
    rw [flatMap_range_succ_left]
    have hlen : (f 0).length = c := hf 0 (Nat.succ_pos p)
    have : (m + 1) * c = (f 0).length + m * c := by rw [hlen]; ring
    rw [this, List.drop_append, ih p (fun j => f (j + 1)) (fun j hj => hf (j + 1) (by omega))
      (by omega)]
    have harg : (fun j => f (m + j + 1)) = fun j => f (m + 1 + j) := by
      funext j; congr 1; omega
    simp only [Nat.succ_sub_succ, harg]

/-- The `k`-th block of a `flatMap` over `List.range` of
constant-length blocks, extracted by `drop`/`take`. -/
theorem slice_flatMap_range {α : Type} (c k n : ℕ) (f : ℕ → List α)
    (hf : ∀ j, j < n → (f j).length = c) (hk : k < n) :
    (((List.range n).flatMap f).drop (k * c)).take c = f k := by
  rw [drop_flatMap_range c k n f hf (by omega)]
  obtain ⟨p, hp⟩ : ∃ p, n - k = p + 1 := ⟨n - k - 1, by omega⟩
  rw [hp, flatMap_range_succ_left, Nat.add_zero,
    List.take_append_of_le_length (by rw [hf k hk]), List.take_of_length_le (by rw [hf k hk])]

/-- Concatenating the consecutive `c`-wide slices of a list recovers
its first `c*n` elements (unconditionally: a short list just gets
truncated slices). -/
theorem flatMap_slices {α : Type} (c : ℕ) (n : ℕ) (l : List α) :
    ((List.range n).flatMap fun k => (l.drop (c * k)).take c) = l.take (c * n) := by
  induction n with
  | zero => simp
  | succ m ih =>
    rw [List.range_succ, List.flatMap_append, ih]
    simp only [List.flatMap_cons, List.flatMap_nil, List.append_nil]
    rw [Nat.mul_succ, List.take_add]

/-! ## Structure of the raw scanline stream -/

/-- Each row of `rawData` is a filter byte followed by the `4*width`-wide
slice of the pixel buffer starting at the row's base offset. -/
theorem rawData_eq (w h : ℕ) (pix : List ℕ) :
    rawData w h pix =
      (List.range h).flatMap fun y => 0 :: (pix.drop (4 * w * y)).take (4 * w) := by
  unfold rawData
  congr 1; funext y
  congr 1
  have harg : (fun x => pySlice pix ((y * w + x) * 4) 4) =
      fun x => ((pix.drop (4 * w * y)).drop (4 * x)).take 4 := by
    funext x
    rw [pySlice, List.drop_drop]
    congr 2
    ring
  rw [harg, flatMap_slices 4 w (pix.drop (4 * w * y))]

/-- Length of the raw scanline stream: one filter byte per row plus
as many pixel bytes as are available, capped at `4*w*h`. -/
theorem rawData_length (w h : ℕ) (pix : List ℕ) :
    (rawData w h pix).length = h + min (4 * w * h) pix.length := by
  rw [rawData_eq]
  induction h with
  | zero => simp
  | succ m ih =>
    rw [List.range_succ, List.flatMap_append, List.length_append, ih]
    simp only [List.flatMap_cons, List.flatMap_nil, List.append_nil, List.length_cons,
      List.length_take, List.length_drop]
    rw [Nat.mul_succ]
    generalize 4 * w * m = B
    omega

/-- Stripping the filter bytes from the raw scanline stream of a
full-length buffer recovers the buffer exactly. -/
theorem unfilter_rawData (w h : ℕ) (pix : List ℕ) (hlen : pix.length = w * h * 4) :
    unfilter w h (rawData w h pix) = pix := by
  rw [rawData_eq]
  unfold unfilter
  have hrow : ∀ j, j < h →
      ((fun y => 0 :: (pix.drop (4 * w * y)).take (4 * w)) j).length = 1 + 4 * w := by
    intro j hj
    simp only [List.length_cons, List.length_take, List.length_drop, hlen]
    have : 4 * w * j + 4 * w ≤ w * h * 4 := by
      have := Nat.mul_le_mul_left (4 * w) hj
      nlinarith
    omega
  have hslice : ∀ y, y < h →
      ((((List.range h).flatMap fun j => 0 :: (pix.drop (4 * w * j)).take (4 * w)).drop
          (y * (1 + 4 * w))).drop 1).take (4 * w) =
        (pix.drop (4 * w * y)).take (4 * w) := by
    intro y hy
    rw [drop_flatMap_range (1 + 4 * w) y h _ hrow (by omega)]
    obtain ⟨p, hp⟩ : ∃ p, h - y = p + 1 := ⟨h - y - 1, by omega⟩
    rw [hp, flatMap_range_succ_left, Nat.add_zero]
    simp only [List.cons_append, List.drop_succ_cons, List.drop_zero]
    rw [List.take_append_of_le_length, List.take_of_length_le] <;>
      · simp only [List.length_take, List.length_drop, hlen]
        have : 4 * w * y + 4 * w ≤ w * h * 4 := by
          have := Nat.mul_le_mul_left (4 * w) hy
          nlinarith
        omega
  calc ((List.range h).flatMap fun y =>
          ((((List.range h).flatMap fun j => 0 :: (pix.drop (4 * w * j)).take (4 * w)).drop
            (y * (1 + 4 * w))).drop 1).take (4 * w))
      = (List.range h).flatMap fun y => (pix.drop (4 * w * y)).take (4 * w) := by
        apply List.flatMap_congr
        intro x hx
        exact hslice x (List.mem_range.mp hx)
    _ = pix := by
        rw [flatMap_slices (4 * w) h pix, List.take_of_length_le]
        rw [hlen]; nlinarith

/-! ## Structure of the `draw_icon` buffer -/

theorem pixelAt_length (s x y : ℕ) : (pixelAt s x y).length = 4 := by
  unfold pixelAt
  simp only []
  split
  · split <;> rfl
  · rfl

/-- One row of the buffer: the pixels of scanline `y`. -/
theorem row_length (s y : ℕ) :
    ((List.range s).flatMap fun x => pixelAt s x y).length = s * 4 :=
  length_flatMap_range 4 s _ fun k _ => pixelAt_length s k y

theorem draw_icon_length (s : ℕ) : (draw_icon s).length = s * s * 4 := by
  unfold draw_icon
  rw [length_flatMap_range (s * 4) s _ fun k _ => row_length s k]
  ring

/-- `channel s x y c` reads exactly channel `c` of `pixelAt s x y`. -/
theorem channel_eq_pixelAt (s x y c : ℕ) (hx : x < s) (hy : y < s) (hc : c < 4) :
    channel s x y c = (pixelAt s x y).getD c 0 := by
  unfold channel
  rw [List.getD_eq_getElem?_getD, List.getD_eq_getElem?_getD]
  congr 1
  have hidx : (y * s + x) * 4 + c = y * (s * 4) + (x * 4 + c) := by ring
  rw [hidx, ← List.getElem?_drop]
  unfold draw_icon
  rw [drop_flatMap_range (s * 4) y s _ (fun j _ => row_length s j) (by omega)]
  obtain ⟨p, hp⟩ : ∃ p, s - y = p + 1 := ⟨s - y - 1, by omega⟩
  rw [hp, flatMap_range_succ_left, Nat.add_zero,
    List.getElem?_append_left (by rw [row_length]; omega), ← List.getElem?_drop,
    drop_flatMap_range 4 x s _ (fun j _ => pixelAt_length s j y) (by omega)]
  obtain ⟨q, hq⟩ : ∃ q, s - x = q + 1 := ⟨s - x - 1, by omega⟩
  rw [hq, flatMap_range_succ_left, Nat.add_zero,
    List.getElem?_append_left (by rw [pixelAt_length]; omega)]

/-! ## Chunk-stream lemmas -/

theorem length_be32 (n : ℕ) : (be32 n).length = 4 := rfl

theorem fromBE_be32 (n : ℕ) : fromBE (be32 n) = n % 2 ^ 32 := by
  simp only [fromBE, be32, List.foldl_cons, List.foldl_nil]
  omega

theorem make_chunk_length (t d : List ℕ) (ht : t.length = 4) :
    (make_chunk t d).length = 12 + d.length := by
  simp [make_chunk, be32, ht]
  omega

theorem parseChunks_nil (fuel : ℕ) : parseChunks fuel [] = some [] := by
  cases fuel <;> simp [parseChunks]

/-- Parsing a well-formed chunk at the head of the stream succeeds
(the embedded CRC field matches the recomputation by construction)
and yields the tag and payload. -/
theorem parseChunks_cons (fuel : ℕ) (t d rest : List ℕ) (ht : t.length = 4)
    (hd : d.length < 2 ^ 32) :
    parseChunks (fuel + 1) (make_chunk t d ++ rest) =
      (parseChunks fuel (rest)).map fun cs => (t, d) :: cs := by
  have hshape : make_chunk t d ++ rest =
      be32 d.length ++ (t ++ (d ++ (be32 (crc32 (t ++ d) &&& 0xFFFFFFFF) ++ rest))) := by
    simp [make_chunk, List.append_assoc]
  have hne : make_chunk t d ++ rest ≠ [] := by
    rw [hshape]; simp [be32]
  have htake4 : (make_chunk t d ++ rest).take 4 = be32 d.length := by
    rw [hshape]; exact List.take_left' (length_be32 _)
  have hdrop4 : (make_chunk t d ++ rest).drop 4 =
      t ++ (d ++ (be32 (crc32 (t ++ d) &&& 0xFFFFFFFF) ++ rest)) := by
    rw [hshape]; exact List.drop_left' (length_be32 _)
  have htag : ((make_chunk t d ++ rest).drop 4).take 4 = t := by
    rw [hdrop4]; exact List.take_left' ht
  have hdrop8 : (make_chunk t d ++ rest).drop 8 =
      d ++ (be32 (crc32 (t ++ d) &&& 0xFFFFFFFF) ++ rest) := by
    rw [show (8 : ℕ) = 4 + 4 from rfl, ← List.drop_drop, hdrop4]
    exact List.drop_left' ht
  have hn : fromBE ((make_chunk t d ++ rest).take 4) = d.length := by
    rw [htake4, fromBE_be32, Nat.mod_eq_of_lt hd]
  have hpayload : ((make_chunk t d ++ rest).drop 8).take d.length = d := by
    rw [hdrop8]; exact List.take_left' rfl
  have hdropcrc : (make_chunk t d ++ rest).drop (8 + d.length) =
      be32 (crc32 (t ++ d) &&& 0xFFFFFFFF) ++ rest := by
    rw [← List.drop_drop, hdrop8]
    exact List.drop_left' rfl
  have hcrc : ((make_chunk t d ++ rest).drop (8 + d.length)).take 4 =
      be32 (crc32 (t ++ d) &&& 0xFFFFFFFF) := by
    rw [hdropcrc]; exact List.take_left' (length_be32 _)
  have hdroprest : (make_chunk t d ++ rest).drop (12 + d.length) = rest := by
    rw [show 12 + d.length = (make_chunk t d).length from (make_chunk_length t d ht).symm]
    exact List.drop_left _ _
  have hlen : 12 + d.length ≤ (make_chunk t d ++ rest).length := by
    rw [List.length_append, make_chunk_length t d ht]
    omega
  rw [parseChunks, if_neg hne]
  simp only [hn, htag, hpayload, hcrc, hdroprest]
  rw [if_pos ⟨hlen, trivial⟩]

/-! ## Integer square-root ceiling -/

theorem le_sqrtCeil_sq (m : ℕ) : m ≤ sqrtCeil m * sqrtCeil m := by
  unfold sqrtCeil
  split
  · omega
  · have h := Nat.lt_succ_sqrt m
    rw [Nat.succ_eq_add_one] at h
    omega

theorem sqrtCeil_le {m k : ℕ} (h : m ≤ k * k) : sqrtCeil m ≤ k := by
  unfold sqrtCeil
  have hs : Nat.sqrt m ≤ k := by
    calc Nat.sqrt m ≤ Nat.sqrt (k * k) := Nat.sqrt_le_sqrt h
    _ = k := Nat.sqrt_eq k
  split
  · exact hs
  · rcases Nat.lt_or_ge (Nat.sqrt m) k with h' | h'
    · omega
    · have hk : k = Nat.sqrt m := by omega
      have h1 := Nat.sqrt_le m
      subst hk
      omega

theorem lt_sqrtCeil {m k : ℕ} (h : k * k < m) : k < sqrtCeil m := by
  by_contra hc
  have h1 : sqrtCeil m ≤ k := by omega
  have h2 := le_sqrtCeil_sq m
  have h3 : sqrtCeil m * sqrtCeil m ≤ k * k := Nat.mul_le_mul h1 h1
  omega

/-! ## Bounds on the pixel channels -/

theorem tClamp_nonneg (s : ℕ) (u v : ℤ) : 0 ≤ tClamp s u v := le_max_left 0 _

theorem tClamp_le_one (s : ℕ) (u v : ℤ) : tClamp s u v ≤ 1 :=
  max_le (by norm_num) (min_le_left 1 _)

/-- The red channel `int(40 + t*20)` lies in `[40, 60]`. -/
theorem rChan_bounds (t : ℚ) (h0 : 0 ≤ t) (h1 : t ≤ 1) :
    40 ≤ (⌊(40 : ℚ) + t * 20⌋).toNat ∧ (⌊(40 : ℚ) + t * 20⌋).toNat ≤ 60 := by
  have hlo : (40 : ℤ) ≤ ⌊(40 : ℚ) + t * 20⌋ := by
    rw [Int.le_floor]
    push_cast
    nlinarith
  have hhi : ⌊(40 : ℚ) + t * 20⌋ ≤ 60 := by
    have : ((40 : ℚ) + t * 20) ≤ 60 := by nlinarith
    calc ⌊(40 : ℚ) + t * 20⌋ ≤ ⌊(60 : ℚ)⌋ := Int.floor_le_floor this
    _ = 60 := by norm_num
  omega

/-- The green channel `int(120 + t*30)` lies in `[120, 150]`. -/
theorem gChan_bounds (t : ℚ) (h0 : 0 ≤ t) (h1 : t ≤ 1) :
    120 ≤ (⌊(120 : ℚ) + t * 30⌋).toNat ∧ (⌊(120 : ℚ) + t * 30⌋).toNat ≤ 150 := by
  have hlo : (120 : ℤ) ≤ ⌊(120 : ℚ) + t * 30⌋ := by
    rw [Int.le_floor]
    push_cast
    nlinarith
  have hhi : ⌊(120 : ℚ) + t * 30⌋ ≤ 150 := by
    have : ((120 : ℚ) + t * 30) ≤ 150 := by nlinarith
    calc ⌊(120 : ℚ) + t * 30⌋ ≤ ⌊(150 : ℚ)⌋ := Int.floor_le_floor this
    _ = 150 := by norm_num
  omega

/-- The blue channel `int(220 - t*40)` lies in `[180, 220]`. -/
theorem bChan_bounds (t : ℚ) (h0 : 0 ≤ t) (h1 : t ≤ 1) :
    180 ≤ (⌊(220 : ℚ) - t * 40⌋).toNat ∧ (⌊(220 : ℚ) - t * 40⌋).toNat ≤ 220 := by
  have hlo : (180 : ℤ) ≤ ⌊(220 : ℚ) - t * 40⌋ := by
    rw [Int.le_floor]
    push_cast
    nlinarith
  have hhi : ⌊(220 : ℚ) - t * 40⌋ ≤ 220 := by
    have : ((220 : ℚ) - t * 40) ≤ 220 := by nlinarith
    calc ⌊(220 : ℚ) - t * 40⌋ ≤ ⌊(220 : ℚ)⌋ := Int.floor_le_floor this
    _ = 220 := by norm_num
  omega

/-- The anti-aliased alpha never exceeds 255: in the anti-aliasing
band `edge_dist < 1.5` gives `⌊170 * edge_dist⌋ ≤ 254`, and outside it
alpha is 255 exactly. -/
theorem alphaAt_le (s : ℕ) (u v : ℤ) : alphaAt s u v ≤ 255 := by
  unfold alphaAt
  split
  · next hband =>
    rw [inBand, decide_eq_true_eq] at hband
    rcases hband with hsmall | hfar
    · -- 9*s < 30, so s ≤ 3 and the numerator is at most 459
      have hs : s ≤ 3 := by omega
      omega
    · -- (9*s - 30)² < 100*(u²+v²); scaling by 289 bounds the sqrt from below
      rcases Nat.lt_or_ge (153 * s) 510 with hlt | hge
      · omega
      · set N := (28900 * (u ^ 2 + v ^ 2)).toNat with hN
        have hkey : (153 * s - 510) * (153 * s - 510) < N := by
          have h1 : ((153 * (s : ℤ) - 510)) ^ 2 < 28900 * (u ^ 2 + v ^ 2) := by
            nlinarith
          have h2 : ((153 * s - 510 : ℕ) : ℤ) = 153 * (s : ℤ) - 510 := by
            omega
          have h3 : (0 : ℤ) ≤ 28900 * (u ^ 2 + v ^ 2) := by positivity
          have h4 : (N : ℤ) = 28900 * (u ^ 2 + v ^ 2) := by
            rw [hN]; exact Int.toNat_of_nonneg h3
          have := h1
          rw [← h2, ← h4] at this
          exact_mod_cast by nlinarith [this]
        have := lt_sqrtCeil hkey
        omega
  · omega

/-- Inside the disk but not in the 1/170-pixel sliver at the rim, the
anti-aliased alpha is positive. -/
theorem alphaAt_pos (s : ℕ) (u v : ℤ) (hs : 0 < s)
    (hedge : nearEdge s u v = false) :
    0 < alphaAt s u v := by
  unfold alphaAt
  split
  · next hband =>
    rw [nearEdge, decide_eq_false_iff_not, not_lt] at hedge
    set N := (28900 * (u ^ 2 + v ^ 2)).toNat with hN
    have h3 : (0 : ℤ) ≤ 28900 * (u ^ 2 + v ^ 2) := by positivity
    have h4 : (N : ℤ) = 28900 * (u ^ 2 + v ^ 2) := by
      rw [hN]; exact Int.toNat_of_nonneg h3
    have h2 : ((153 * s - 2 : ℕ) : ℤ) = 153 * (s : ℤ) - 2 := by
      omega
    have hkey : N ≤ (153 * s - 2) * (153 * s - 2) := by
      have : (N : ℤ) ≤ ((153 * s - 2 : ℕ) : ℤ) * ((153 * s - 2 : ℕ) : ℤ) := by
        rw [h4, h2]
        nlinarith [hedge]
      exact_mod_cast this
    have := sqrtCeil_le hkey
    omega
  · omega

/-! ## Mirror symmetry of the glyph tests -/

/-- Every glyph sub-test reads the horizontal coordinate only through
`abs nx` or `nx * nx`, so the test is invariant under `nx ↦ -nx`. -/
theorem micTest_neg (nx ny : ℚ) : micTest (-nx) ny = micTest nx ny := by
  simp only [micTest, abs_neg, neg_mul_neg]

theorem isMic_neg (s : ℕ) (u v : ℤ) : isMic s (-u) v = isMic s u v := by
  unfold isMic
  rw [show 10 * ((-u : ℤ) : ℚ) / (9 * (s : ℚ)) = -(10 * (u : ℤ) / (9 * (s : ℚ))) by
    push_cast; ring]
  exact micTest_neg _ _

theorem inDisk_neg (s : ℕ) (u v : ℤ) : inDisk s (-u) v = inDisk s u v := by
  simp [inDisk, neg_sq]

/-! ## Shape of a single pixel -/

theorem pixelAt_outside (s x y : ℕ)
    (h : inDisk s (2 * (x : ℤ) - s) (2 * (y : ℤ) - s) = false) :
    pixelAt s x y = [0, 0, 0, 0] := by
  unfold pixelAt
  simp only []
  rw [if_neg]
  simp [h]

theorem pixelAt_mic (s x y : ℕ)
    (hd : inDisk s (2 * (x : ℤ) - s) (2 * (y : ℤ) - s) = true)
    (hm : isMic s (2 * (x : ℤ) - s) (2 * (y : ℤ) - s) = true) :
    pixelAt s x y = [255, 255, 255, alphaAt s (2 * (x : ℤ) - s) (2 * (y : ℤ) - s)] := by
  unfold pixelAt
  simp only []
  rw [if_pos hd, if_pos hm]

theorem pixelAt_bg (s x y : ℕ)
    (hd : inDisk s (2 * (x : ℤ) - s) (2 * (y : ℤ) - s) = true)
    (hm : isMic s (2 * (x : ℤ) - s) (2 * (y : ℤ) - s) = false) :
    pixelAt s x y =
      [(⌊(40 : ℚ) + tClamp s (2 * (x : ℤ) - s) (2 * (y : ℤ) - s) * 20⌋).toNat,
       (⌊(120 : ℚ) + tClamp s (2 * (x : ℤ) - s) (2 * (y : ℤ) - s) * 30⌋).toNat,
       (⌊(220 : ℚ) - tClamp s (2 * (x : ℤ) - s) (2 * (y : ℤ) - s) * 40⌋).toNat,
       alphaAt s (2 * (x : ℤ) - s) (2 * (y : ℤ) - s)] := by
  unfold pixelAt
  simp only []
  rw [if_pos hd, if_neg]
  simp [hm]

/-- Every entry of a pixel quadruple is at most 255. -/
theorem pixelAt_mem_le (s x y : ℕ) (z : ℕ) (hz : z ∈ pixelAt s x y) : z ≤ 255 := by
  by_cases hd : inDisk s (2 * (x : ℤ) - s) (2 * (y : ℤ) - s) = true
  · by_cases hm : isMic s (2 * (x : ℤ) - s) (2 * (y : ℤ) - s) = true
    · rw [pixelAt_mic s x y hd hm] at hz
      have ha := alphaAt_le s (2 * (x : ℤ) - s) (2 * (y : ℤ) - s)
      simp only [List.mem_cons, List.not_mem_nil, or_false] at hz
      rcases hz with rfl | rfl | rfl | rfl <;> omega
    · rw [pixelAt_bg s x y hd (by simpa using hm)] at hz
      have h0 := tClamp_nonneg s (2 * (x : ℤ) - s) (2 * (y : ℤ) - s)
      have h1 := tClamp_le_one s (2 * (x : ℤ) - s) (2 * (y : ℤ) - s)
      have hr := rChan_bounds _ h0 h1
      have hg := gChan_bounds _ h0 h1
      have hb := bChan_bounds _ h0 h1
      have ha := alphaAt_le s (2 * (x : ℤ) - s) (2 * (y : ℤ) - s)
      simp only [List.mem_cons, List.not_mem_nil, or_false] at hz
      rcases hz with rfl | rfl | rfl | rfl <;> omega
  · rw [pixelAt_outside s x y (by simpa using hd)] at hz
    simp only [List.mem_cons, List.not_mem_nil, or_false] at hz
    rcases hz with rfl | rfl | rfl | rfl <;> omega

/-! ## Claim theorems -/

/-- C1: for every size `s > 0`, `draw_icon(s)` returns a buffer of
exactly `s*s*4` values; every alpha value lies in `[0, 255]` (values
are naturals, so the lower bound is inherent); every pixel whose
centre distance from the image centre exceeds the disk radius
`0.45*s` has all four channels equal to 0; and every pixel inside the
disk — except immediately at the anti-aliased boundary, i.e. within
`1/170` px of the rim where the truncated alpha reaches 0 — has
alpha > 0. -/
theorem draw_icon_buffer_spec (s : ℕ) (hs : 0 < s) :
    (draw_icon s).length = s * s * 4 ∧
    ∀ x y : ℕ, x < s → y < s →
      channel s x y 3 ≤ 255 ∧
      (inDisk s (2 * (x : ℤ) - s) (2 * (y : ℤ) - s) = false →
        channel s x y 0 = 0 ∧ channel s x y 1 = 0 ∧
        channel s x y 2 = 0 ∧ channel s x y 3 = 0) ∧
      (inDisk s (2 * (x : ℤ) - s) (2 * (y : ℤ) - s) = true →
        nearEdge s (2 * (x : ℤ) - s) (2 * (y : ℤ) - s) = false →
        0 < channel s x y 3) := by
  refine ⟨draw_icon_length s, fun x y hx hy => ?_⟩
  have hc0 := channel_eq_pixelAt s x y 0 hx hy (by norm_num)
  have hc1 := channel_eq_pixelAt s x y 1 hx hy (by norm_num)
  have hc2 := channel_eq_pixelAt s x y 2 hx hy (by norm_num)
  have hc3 := channel_eq_pixelAt s x y 3 hx hy (by norm_num)
  by_cases hd : inDisk s (2 * (x : ℤ) - s) (2 * (y : ℤ) - s) = true
  · have halpha : channel s x y 3 = alphaAt s (2 * (x : ℤ) - s) (2 * (y : ℤ) - s) := by
      by_cases hm : isMic s (2 * (x : ℤ) - s) (2 * (y : ℤ) - s) = true
      · rw [hc3, pixelAt_mic s x y hd hm]; rfl
      · rw [hc3, pixelAt_bg s x y hd (by simpa using hm)]; rfl
    refine ⟨?_, ?_, ?_⟩
    · rw [halpha]
      exact alphaAt_le s _ _
    · intro hcontra
      rw [hd] at hcontra
      cases hcontra
    · intro _ hedge
      rw [halpha]
      exact alphaAt_pos s _ _ hs hedge
  · have hout := pixelAt_outside s x y (by simpa using hd)
    refine ⟨?_, ?_, ?_⟩
    · rw [hc3, hout]
      norm_num
    · intro _
      refine ⟨?_, ?_, ?_, ?_⟩
      · rw [hc0, hout]; rfl
      · rw [hc1, hout]; rfl
      · rw [hc2, hout]; rfl
      · rw [hc3, hout]; rfl
    · intro hcontra _
      exact absurd hcontra hd

/-- C1 witness: the theorem instantiated at the concrete size 3. -/
theorem draw_icon_buffer_spec_witness :
    0 < 3 ∧
      ((draw_icon 3).length = 3 * 3 * 4 ∧
      ∀ x y : ℕ, x < 3 → y < 3 →
        channel 3 x y 3 ≤ 255 ∧
        (inDisk 3 (2 * (x : ℤ) - 3) (2 * (y : ℤ) - 3) = false →
          channel 3 x y 0 = 0 ∧ channel 3 x y 1 = 0 ∧
          channel 3 x y 2 = 0 ∧ channel 3 x y 3 = 0) ∧
        (inDisk 3 (2 * (x : ℤ) - 3) (2 * (y : ℤ) - 3) = true →
          nearEdge 3 (2 * (x : ℤ) - 3) (2 * (y : ℤ) - 3) = false →
          0 < channel 3 x y 3)) :=
  ⟨by norm_num, draw_icon_buffer_spec 3 (by norm_num)⟩

/-- C2 (counterexample): the glyph mask is not mirror-symmetric under
the pixel-index reflection `x ↦ s-1-x`.  At size 64, pixel `(33, 40)`
is on the microphone stand, but pixel `(64-1-33, 40) = (30, 40)` is
not part of the glyph: pixel centres sit at integer coordinates while
the image centre is at `s/2`, so the index reflection lands `1` pixel
off the geometric mirror image. -/
theorem glyph_mask_index_mirror_cex :
    glyphMask 64 33 40 = true ∧ glyphMask 64 (64 - 1 - 33) 40 = false := by
  constructor <;> norm_num [glyphMask, inDisk, isMic, micTest, abs_le, lt_abs]

/-- C2 (amended): the glyph tests are symmetric under negating the
horizontal displacement from the image centre, so the glyph mask is
mirror-symmetric under the pixel map `x ↦ s - x` (which negates
`2*x - s`), not under `x ↦ s-1-x`. -/
theorem glyph_mask_mirror (s x y : ℕ) (hx : x ≤ s) :
    glyphMask s x y = glyphMask s (s - x) y := by
  unfold glyphMask
  have hcast : 2 * ((s - x : ℕ) : ℤ) - s = -(2 * (x : ℤ) - s) := by
    rw [Nat.cast_sub hx]
    ring
  rw [hcast, inDisk_neg, isMic_neg]

/-- C2 witness: the amended symmetry at size 64, pixel column 33
(whose mirror column is 31, one to the right of the column 30 used by
the index reflection). -/
theorem glyph_mask_mirror_witness :
    33 ≤ 64 ∧ glyphMask 64 33 40 = glyphMask 64 (64 - 33) 40 :=
  ⟨by norm_num, glyph_mask_mirror 64 33 40 (by norm_num)⟩

/-- C7: for a pixel inside the disk that passes the microphone test,
the red, green and blue channels written to the buffer are all 255,
and the alpha channel equals `alphaAt` — the anti-aliased alpha
computed from the disk edge before the glyph override, which touches
only the colour channels. -/
theorem mic_pixel_override (s x y : ℕ) (hx : x < s) (hy : y < s)
    (hd : inDisk s (2 * (x : ℤ) - s) (2 * (y : ℤ) - s) = true)
    (hm : isMic s (2 * (x : ℤ) - s) (2 * (y : ℤ) - s) = true) :
    channel s x y 0 = 255 ∧ channel s x y 1 = 255 ∧ channel s x y 2 = 255 ∧
    channel s x y 3 = alphaAt s (2 * (x : ℤ) - s) (2 * (y : ℤ) - s) := by
  have h := pixelAt_mic s x y hd hm
  refine ⟨?_, ?_, ?_, ?_⟩ <;>
    rw [channel_eq_pixelAt s x y _ hx hy (by norm_num), h] <;> rfl

/-- C7 witness: at size 8, pixel `(4, 5)` lies on the microphone stand
inside the disk; its colour channels are white and its alpha is the
anti-aliased value 255. -/
theorem mic_pixel_override_witness :
    4 < 8 ∧ 5 < 8 ∧
      inDisk 8 (2 * (4 : ℤ) - 8) (2 * (5 : ℤ) - 8) = true ∧
      isMic 8 (2 * (4 : ℤ) - 8) (2 * (5 : ℤ) - 8) = true ∧
      (channel 8 4 5 0 = 255 ∧ channel 8 4 5 1 = 255 ∧ channel 8 4 5 2 = 255 ∧
        channel 8 4 5 3 = alphaAt 8 (2 * (4 : ℤ) - 8) (2 * (5 : ℤ) - 8)) :=
  ⟨by norm_num, by norm_num, by decide, by norm_num [isMic, micTest, abs_le, lt_abs],
    mic_pixel_override 8 4 5 (by norm_num) (by norm_num) (by decide)
      (by norm_num [isMic, micTest, abs_le, lt_abs])⟩

/-- C8: every element of the buffer returned by `draw_icon` is at most
255 (and is a natural number, hence at least 0), so the byte
conversion `bytes(pixels[idx:idx+4])` in `create_png` always receives
values in the valid range `[0, 255]`. -/
theorem draw_icon_bytes_le (s z : ℕ) (hz : z ∈ draw_icon s) : z ≤ 255 := by
  unfold draw_icon at hz
  rw [List.mem_flatMap] at hz
  obtain ⟨y, _, hz⟩ := hz
  rw [List.mem_flatMap] at hz
  obtain ⟨x, _, hz⟩ := hz
  exact pixelAt_mem_le s x y z hz

/-- C8 witness: element 0 of `draw_icon 1` (the transparent corner
pixel) is in range. -/
theorem draw_icon_bytes_le_witness : (0 : ℕ) ∈ draw_icon 1 ∧ (0 : ℕ) ≤ 255 :=
  ⟨by decide, draw_icon_bytes_le 1 0 (by decide)⟩

/-- The chunk stream of `create_png` output (after the 8-byte
signature) parses into exactly the IHDR, IDAT and IEND chunks, every
CRC field matching its recomputation.  Stated for an arbitrary fuel
margin so it can be reused at any stream length. -/
theorem parse_create_png (compress : List ℕ → List ℕ) (w h : ℕ) (pix : List ℕ)
    (hz : (compress (rawData w h pix)).length < 2 ^ 32) (fuel : ℕ) :
    parseChunks (fuel + 3) ((create_png compress w h pix).drop 8) =
      some [(ihdrTag, ihdrData w h), (idatTag, compress (rawData w h pix)),
        (iendTag, [])] := by
  have hdrop : (create_png compress w h pix).drop 8 =
      make_chunk ihdrTag (ihdrData w h) ++
        (make_chunk idatTag (compress (rawData w h pix)) ++ (make_chunk iendTag [] ++ [])) := by
    unfold create_png
    rw [List.append_nil, List.append_assoc, List.append_assoc]
    exact List.drop_left' rfl
  rw [hdrop,
    parseChunks_cons (fuel + 2) ihdrTag (ihdrData w h) _ rfl (by simp [ihdrData, be32]),
    parseChunks_cons (fuel + 1) idatTag _ _ rfl hz,
    parseChunks_cons fuel iendTag [] [] rfl (by norm_num),
    parseChunks_nil fuel]
  rfl

/-- C5: each chunk of the `create_png` output is serialized as the
4-byte big-endian payload length, the 4-byte tag, the payload, and a
4-byte big-endian CRC-32 that equals the CRC-32 recomputed over
tag ++ payload: the chunk parser — which reads exactly that layout
and rejects any chunk whose CRC field differs from the recomputation —
accepts all three chunks of the stream. -/
theorem png_chunk_stream_spec (compress : List ℕ → List ℕ) (w h : ℕ) (pix : List ℕ)
    (hz : (compress (rawData w h pix)).length < 2 ^ 32) :
    parseChunks 3 ((create_png compress w h pix).drop 8) =
      some [(ihdrTag, ihdrData w h), (idatTag, compress (rawData w h pix)),
        (iendTag, [])] :=
  parse_create_png compress w h pix hz 0

/-- C5 witness: the identity compressor on a 1×1 image. -/
theorem png_chunk_stream_spec_witness :
    ((fun l : List ℕ => l) (rawData 1 1 [0, 0, 0, 0])).length < 2 ^ 32 ∧
      parseChunks 3 ((create_png (fun l => l) 1 1 [0, 0, 0, 0]).drop 8) =
        some [(ihdrTag, ihdrData 1 1), (idatTag, (fun l : List ℕ => l) (rawData 1 1 [0, 0, 0, 0])),
          (iendTag, [])] :=
  ⟨by decide, png_chunk_stream_spec (fun l => l) 1 1 [0, 0, 0, 0] (by decide)⟩

/-- C6: the IHDR payload is the width and the height, each as a 4-byte
big-endian unsigned integer, followed by the five bytes
bit depth 8, colour type 6, compression 0, filter 0, interlace 0. -/
theorem ihdr_payload_spec (w h : ℕ) (hw : w < 2 ^ 32) (hh : h < 2 ^ 32) :
    (ihdrData w h).length = 13 ∧
    ihdrData w h = be32 w ++ be32 h ++ [8, 6, 0, 0, 0] ∧
    fromBE ((ihdrData w h).take 4) = w ∧
    fromBE (((ihdrData w h).drop 4).take 4) = h ∧
    (ihdrData w h).drop 8 = [8, 6, 0, 0, 0] := by
  refine ⟨by simp [ihdrData, be32], rfl, ?_, ?_, by simp [ihdrData, be32]⟩
  · have : (ihdrData w h).take 4 = be32 w := by
      rw [ihdrData, List.append_assoc]
      exact List.take_left' (length_be32 w)
    rw [this, fromBE_be32, Nat.mod_eq_of_lt hw]
  · have h4 : (ihdrData w h).drop 4 = be32 h ++ [8, 6, 0, 0, 0] := by
      rw [ihdrData, List.append_assoc]
      exact List.drop_left' (length_be32 w)
    rw [h4, List.take_left' (length_be32 h), fromBE_be32, Nat.mod_eq_of_lt hh]

/-- C6 witness: a 16×16 header. -/
theorem ihdr_payload_spec_witness :
    16 < 2 ^ 32 ∧ 16 < 2 ^ 32 ∧
      ((ihdrData 16 16).length = 13 ∧
      ihdrData 16 16 = be32 16 ++ be32 16 ++ [8, 6, 0, 0, 0] ∧
      fromBE ((ihdrData 16 16).take 4) = 16 ∧
      fromBE (((ihdrData 16 16).drop 4).take 4) = 16 ∧
      (ihdrData 16 16).drop 8 = [8, 6, 0, 0, 0]) :=
  ⟨by norm_num, by norm_num, ihdr_payload_spec 16 16 (by norm_num) (by norm_num)⟩

/-- C9: `create_png` is total — the slices `pixels[idx:idx+4]` simply
truncate when the buffer is too short — and a buffer shorter than
`width*height*4` produces, without any error, a structurally
well-formed chunk stream whose raw scanline stream is shorter than
`height*(1 + 4*width)` bytes. -/
theorem create_png_short_buffer (compress : List ℕ → List ℕ) (w h : ℕ) (pix : List ℕ)
    (_hvals : ∀ b ∈ pix, b ≤ 255) (hshort : pix.length < w * h * 4)
    (hz : (compress (rawData w h pix)).length < 2 ^ 32) :
    (rawData w h pix).length < h * (1 + 4 * w) ∧
    parseChunks 3 ((create_png compress w h pix).drop 8) =
      some [(ihdrTag, ihdrData w h), (idatTag, compress (rawData w h pix)),
        (iendTag, [])] := by
  refine ⟨?_, parse_create_png compress w h pix hz 0⟩
  rw [rawData_length]
  have e1 : 4 * w * h = w * h * 4 := by ring
  have e2 : h * (1 + 4 * w) = h + 4 * w * h := by ring
  omega

/-- C9 witness: a 1×1 image given only one byte of pixel data. -/
theorem create_png_short_buffer_witness :
    (∀ b ∈ [(7 : ℕ)], b ≤ 255) ∧ ([(7 : ℕ)]).length < 1 * 1 * 4 ∧
      ((fun l : List ℕ => l) (rawData 1 1 [7])).length < 2 ^ 32 ∧
      ((rawData 1 1 [7]).length < 1 * (1 + 4 * 1) ∧
      parseChunks 3 ((create_png (fun l => l) 1 1 [7]).drop 8) =
        some [(ihdrTag, ihdrData 1 1), (idatTag, (fun l : List ℕ => l) (rawData 1 1 [7])),
          (iendTag, [])]) :=
  ⟨by decide, by decide, by decide,
    create_png_short_buffer (fun l => l) 1 1 [7] (by decide) (by decide) (by decide)⟩

/-- C3: the output of `create_png` starts with the 8-byte PNG
signature, and a standard decoder — parse the chunks checking CRCs,
read the dimensions from IHDR, decompress the IDAT payload with the
inverse of the compressor, and strip the per-row filter bytes —
recovers the pixel buffer exactly. -/
theorem create_png_roundtrip (compress decompress : List ℕ → List ℕ)
    (hinv : ∀ l, decompress (compress l) = l) (w h : ℕ) (pix : List ℕ)
    (hw : w < 2 ^ 32) (hh : h < 2 ^ 32) (hlen : pix.length = w * h * 4)
    (_hvals : ∀ b ∈ pix, b ≤ 255)
    (hz : (compress (rawData w h pix)).length < 2 ^ 32) :
    (create_png compress w h pix).take 8 = pngSig ∧
    decodePNG decompress (create_png compress w h pix) = some (w, h, pix) := by
  have hsig : (create_png compress w h pix).take 8 = pngSig := by
    unfold create_png
    rw [List.append_assoc, List.append_assoc]
    exact List.take_left' rfl
  refine ⟨hsig, ?_⟩
  have hf : ∃ f, (create_png compress w h pix).length = f + 3 := by
    refine ⟨(create_png compress w h pix).length - 3, ?_⟩
    have h3 : 3 ≤ (create_png compress w h pix).length := by
      unfold create_png
      simp only [List.length_append]
      have h8 : pngSig.length = 8 := rfl
      omega
    omega
  obtain ⟨f, hflen⟩ := hf
  unfold decodePNG
  rw [if_pos hsig, hflen, parse_create_png compress w h pix hz f]
  have hw' : fromBE ((ihdrData w h).take 4) = w := by
    have : (ihdrData w h).take 4 = be32 w := by
      rw [ihdrData, List.append_assoc]
      exact List.take_left' (length_be32 w)
    rw [this, fromBE_be32, Nat.mod_eq_of_lt hw]
  have hh' : fromBE (((ihdrData w h).drop 4).take 4) = h := by
    have h4 : (ihdrData w h).drop 4 = be32 h ++ [8, 6, 0, 0, 0] := by
      rw [ihdrData, List.append_assoc]
      exact List.drop_left' (length_be32 w)
    rw [h4, List.take_left' (length_be32 h), fromBE_be32, Nat.mod_eq_of_lt hh]
  rw [Option.some_bind]
  dsimp only
  rw [if_pos ⟨rfl, by simp [ihdrData, be32]⟩, hw', hh']
  have hfilter : List.filter (fun c => c.1 == idatTag)
      [(idatTag, compress (rawData w h pix)), (iendTag, ([] : List ℕ))] =
      [(idatTag, compress (rawData w h pix))] := rfl
  rw [hfilter]
  simp only [List.flatMap_cons, List.flatMap_nil, List.append_nil]
  rw [hinv, unfilter_rawData w h pix hlen]

/-- C3 witness: identity compressor on a concrete 1×1 image. -/
theorem create_png_roundtrip_witness :
    (∀ l : List ℕ, (fun l : List ℕ => l) ((fun l : List ℕ => l) l) = l) ∧
      (1 : ℕ) < 2 ^ 32 ∧ ([(1 : ℕ), 2, 3, 4]).length = 1 * 1 * 4 ∧
      (∀ b ∈ [(1 : ℕ), 2, 3, 4], b ≤ 255) ∧
      ((fun l : List ℕ => l) (rawData 1 1 [1, 2, 3, 4])).length < 2 ^ 32 ∧
      ((create_png (fun l => l) 1 1 [1, 2, 3, 4]).take 8 = pngSig ∧
        decodePNG (fun l => l) (create_png (fun l => l) 1 1 [1, 2, 3, 4]) =
          some (1, 1, [1, 2, 3, 4])) :=
  ⟨fun _ => rfl, by decide, by decide, by decide, by decide,
    create_png_roundtrip (fun l => l) (fun l => l) (fun _ => rfl) 1 1 [1, 2, 3, 4]
      (by decide) (by decide) (by decide) (by decide) (by decide)⟩

/-- C4 (counterexample): with the fixed table, the driver invokes the
rasterizer 7 times — once per distinct size, and the table has 7
distinct sizes (16, 32, 64, 128, 256, 512, 1024) — not 6 as claimed. -/
theorem main_render_count_cex : (mainRun (fun l => l)).1 ≠ 6 := by
  have h : (mainRun (fun l => l)).1 = 7 := by
    simp [mainRun, sizesTable, mainStep, List.lookup]
  omega

/-- C4 (amended): the driver writes exactly 10 files, in table order,
each filename paired with `create_png` of the buffer rendered at the
size paired to that filename — re-using the cached buffer across
filenames that share a size — and invokes the rasterizer exactly 7
times, once per distinct size in the table. -/
theorem main_driver_spec (compress : List ℕ → List ℕ) :
    (mainRun compress).1 = 7 ∧
    (mainRun compress).2.length = 10 ∧
    (mainRun compress).2 =
      sizesTable.map fun e => (e.1, create_png compress e.2 e.2 (draw_icon e.2)) := by
  refine ⟨?_, ?_, ?_⟩ <;> simp [mainRun, sizesTable, mainStep, List.lookup]

/-- C4 witness: the amended driver contract at the identity
compressor. -/
theorem main_driver_spec_witness :
    (mainRun (fun l => l)).1 = 7 ∧
    (mainRun (fun l => l)).2.length = 10 ∧
    (mainRun (fun l => l)).2 =
      sizesTable.map fun e => (e.1, create_png (fun l => l) e.2 e.2 (draw_icon e.2)) :=
  main_driver_spec (fun l => l)

/-- C10: files whose table entries share a pixel size receive
byte-for-byte identical contents: the driver caches the rendered
buffer per size and `create_png` is a deterministic function of
`(size, size, buffer)`. -/
theorem duplicate_size_outputs (compress : List ℕ → List ℕ) :
    (mainRun compress).2.lookup "icon_16x16@2x.png" =
        some (create_png compress 32 32 (draw_icon 32)) ∧
    (mainRun compress).2.lookup "icon_32x32.png" =
        some (create_png compress 32 32 (draw_icon 32)) ∧
    (mainRun compress).2.lookup "icon_128x128@2x.png" =
        some (create_png compress 256 256 (draw_icon 256)) ∧
    (mainRun compress).2.lookup "icon_256x256.png" =
        some (create_png compress 256 256 (draw_icon 256)) ∧
    (mainRun compress).2.lookup "icon_256x256@2x.png" =
        some (create_png compress 512 512 (draw_icon 512)) ∧
    (mainRun compress).2.lookup "icon_512x512.png" =
        some (create_png compress 512 512 (draw_icon 512)) := by
  refine ⟨?_, ?_, ?_, ?_, ?_, ?_⟩ <;> simp [mainRun, sizesTable, mainStep, List.lookup]

/-- C10 witness: the duplicate-size file contents at the identity
compressor. -/
theorem duplicate_size_outputs_witness :
    (mainRun (fun l => l)).2.lookup "icon_16x16@2x.png" =
        some (create_png (fun l => l) 32 32 (draw_icon 32)) ∧
    (mainRun (fun l => l)).2.lookup "icon_32x32.png" =
        some (create_png (fun l => l) 32 32 (draw_icon 32)) ∧
    (mainRun (fun l => l)).2.lookup "icon_128x128@2x.png" =
        some (create_png (fun l => l) 256 256 (draw_icon 256)) ∧
    (mainRun (fun l => l)).2.lookup "icon_256x256.png" =
        some (create_png (fun l => l) 256 256 (draw_icon 256)) ∧
    (mainRun (fun l => l)).2.lookup "icon_256x256@2x.png" =
        some (create_png (fun l => l) 512 512 (draw_icon 512)) ∧
    (mainRun (fun l => l)).2.lookup "icon_512x512.png" =
        some (create_png (fun l => l) 512 512 (draw_icon 512)) :=
  duplicate_size_outputs (fun l => l)

end IconGen
